import Mathlib

/-!
Verification of the github-proxy request handler
(`cmd/github-proxy/github-proxy.go`).

The handler is embedded shallowly: HTTP headers become association lists
with canonicalized MIME keys, `url.Values` becomes an insertion-ordered
association list from keys to value lists, the prometheus gauge becomes a
function from label to integer, and the upstream transport becomes a
function argument returning either a response or an error string.  The
handler itself (`handle`) mirrors the Go handler line by line and returns
the response written to the caller, the list of upstream calls performed,
the updated monitor table and the updated gauge.
-/

namespace GithubProxy

/-! ## MIME header canonicalization (net/textproto) -/

/-- Valid header-field byte, as in net/textproto `validHeaderFieldByte`:
letters, digits and the RFC 7230 token specials. -/
def isTokenChar (c : Char) : Bool :=
  c.isAlphanum ||
    (let n := c.toNat
     n = 33 || n = 35 || n = 36 || n = 37 || n = 38 || n = 39 || n = 42 ||
     n = 43 || n = 45 || n = 46 || n = 94 || n = 95 || n = 96 || n = 124 || n = 126)

/-- Case canonicalization of a header key: uppercase the first letter and
every letter after a hyphen, lowercase the rest. -/
def canonChars : Bool → List Char → List Char
  | _, [] => []
  | up, c :: rest =>
    let c2 := if up then c.toUpper else c.toLower
    c2 :: canonChars (c2 = '-') rest

/-- net/textproto `CanonicalMIMEHeaderKey`: canonicalize the case when the
key is a valid token, otherwise return it unchanged. -/
def canonicalKey (s : String) : String :=
  if s.toList.all isTokenChar then ⟨canonChars true s.toList⟩ else s

/-- HTTP headers: association list from canonical key to values. -/
abbrev Header := List (String × List String)

def headerLookup : Header → String → Option (List String)
  | [], _ => none
  | (k2, vs) :: rest, k => if k2 = k then some vs else headerLookup rest k

/-- `http.Header.Get`: first value under the canonical key, or "". -/
def headerGet (h : Header) (k : String) : String :=
  match headerLookup h (canonicalKey k) with
  | some (v :: _) => v
  | _ => ""

def headerSetAux : Header → String → String → Header
  | [], k, v => [(k, [v])]
  | (k2, vs) :: rest, k, v =>
    if k2 = k then (k2, [v]) :: rest else (k2, vs) :: headerSetAux rest k v

/-- `http.Header.Set`: replace the values under the canonical key by the
single given value. -/
def headerSet (h : Header) (k v : String) : Header :=
  headerSetAux h (canonicalKey k) v

/-! ## strconv.Atoi -/

def digitsValAux : List Char → Nat → Option Nat
  | [], acc => some acc
  | c :: rest, acc =>
    if c.isDigit then digitsValAux rest (acc * 10 + (c.toNat - 48)) else none

def digitsVal : List Char → Option Nat
  | [] => none
  | l => digitsValAux l 0

/-- `strconv.Atoi`: optional sign then decimal digits.  Returns the value
and a success flag; on any syntax error the returned value is 0, matching
Go's `Atoi` which returns 0 together with an error. -/
def atoi (s : String) : Int × Bool :=
  match s.toList with
  | [] => (0, false)
  | c :: rest =>
    if c = '-' then
      match digitsVal rest with
      | some n => (-(n : Int), true)
      | none => (0, false)
    else if c = '+' then
      match digitsVal rest with
      | some n => ((n : Int), true)
      | none => (0, false)
    else
      match digitsVal (c :: rest) with
      | some n => ((n : Int), true)
      | none => (0, false)

theorem atoi_bad_zero (s : String) (h : (atoi s).2 = false) : (atoi s).1 = 0 := by
  unfold atoi at *
  rcases hs : s.data with _ | ⟨c, rest⟩
  · simp only [String.toList, hs] at h ⊢
  · simp only [String.toList, hs] at h ⊢
    by_cases hc1 : c = '-'
    · rcases hd : digitsVal rest with _ | n <;> simp [hc1, hd] at h ⊢
    · by_cases hc2 : c = '+'
      · rcases hd : digitsVal rest with _ | n <;> simp [hc1, hc2, hd] at h ⊢
      · rcases hd : digitsVal (c :: rest) with _ | n <;>
          simp [hc1, hc2, hd] at h ⊢

/-! ## net/url query parsing and encoding

`url.Values` is modelled as an insertion-ordered association list from
keys to non-empty value lists.  Parsing and encoding follow the Go 1.x
`net/url` implementation used by the repository: `ParseQuery` splits on
both `&` and `;`, skips empty segments and segments whose key or value
fails percent-decoding; `Values.Encode` sorts the keys and percent-encodes
keys and values with `QueryEscape`. -/

abbrev Values := List (String × List String)

def valuesLookup : Values → String → Option (List String)
  | [], _ => none
  | (k2, vs) :: rest, k => if k2 = k then some vs else valuesLookup rest k

/-- `url.Values.Add`: append a value under a key, keeping insertion order. -/
def valuesAdd : Values → String → String → Values
  | [], k, v => [(k, [v])]
  | (k2, vs) :: rest, k, v =>
    if k2 = k then (k2, vs ++ [v]) :: rest else (k2, vs) :: valuesAdd rest k v

/-- `url.Values.Set`: replace the values under a key by a single value. -/
def valuesSet : Values → String → String → Values
  | [], k, v => [(k, [v])]
  | (k2, vs) :: rest, k, v =>
    if k2 = k then (k2, [v]) :: rest else (k2, vs) :: valuesSet rest k v

/-- Hex value of a hex digit character, if any. -/
def unhex (c : Char) : Option Nat :=
  let n := c.toNat
  if 48 ≤ n ∧ n ≤ 57 then some (n - 48)
  else if 65 ≤ n ∧ n ≤ 70 then some (n - 55)
  else if 97 ≤ n ∧ n ≤ 102 then some (n - 87)
  else none

/-- `url.QueryUnescape` on a character list: `+` becomes space, `%XX`
decodes a byte, a malformed escape fails. -/
def unescapeL : List Char → Option (List Char)
  | [] => some []
  | '%' :: a :: b :: rest => do
    let ha ← unhex a
    let hb ← unhex b
    let r ← unescapeL rest
    pure (Char.ofNat (16 * ha + hb) :: r)
  | '%' :: _ => none
  | '+' :: rest => do
    let r ← unescapeL rest
    pure (' ' :: r)
  | c :: rest => do
    let r ← unescapeL rest
    pure (c :: r)

/-- Uppercase hex digit of a nibble. -/
def hexUpper (n : Nat) : Char :=
  if n < 10 then Char.ofNat (48 + n) else Char.ofNat (55 + n)

/-- UTF-8 bytes of a character (the nibble masks mirror the encoder's
bitwise operations, so every produced byte is below 256). -/
def charBytes (c : Char) : List Nat :=
  let n := c.toNat
  if n < 128 then [n]
  else if n < 2048 then [192 + (n / 64) % 32, 128 + n % 64]
  else if n < 65536 then [224 + (n / 4096) % 16, 128 + (n / 64) % 64, 128 + n % 64]
  else [240 + (n / 262144) % 8, 128 + (n / 4096) % 64, 128 + (n / 64) % 64, 128 + n % 64]

/-- `url.shouldEscape` for a query component: everything except
alphanumerics and `-_.~` is escaped. -/
def shouldEscapeQuery (c : Char) : Bool :=
  !(c.isAlphanum || c = '-' || c = '_' || c = '.' || c = '~')

/-- `url.QueryEscape` of a single character: space becomes `+`, reserved
characters become `%XX` per UTF-8 byte, the rest pass through. -/
def escapeChar (c : Char) : List Char :=
  if c = ' ' then ['+']
  else if shouldEscapeQuery c then
    (charBytes c).flatMap (fun b => ['%', hexUpper (b / 16), hexUpper (b % 16)])
  else [c]

/-- `url.QueryEscape` on a character list. -/
def escapeL (cs : List Char) : List Char := cs.foldr (fun c acc => escapeChar c ++ acc) []

def isSep (c : Char) : Bool := c = '&' || c = ';'

/-- Split a raw query on the separators `&` and `;`. -/
def splitSeps : List Char → List (List Char)
  | [] => [[]]
  | c :: rest =>
    if isSep c then [] :: splitSeps rest
    else
      match splitSeps rest with
      | [] => [[c]]
      | s :: ss => (c :: s) :: ss

/-- Split a segment at the first `=`; the value is empty when there is
none (`strings.Cut` semantics in `parseQuery`). -/
def cutEq : List Char → List Char × List Char
  | [] => ([], [])
  | c :: rest =>
    if c = '=' then ([], rest)
    else
      let (k, v) := cutEq rest
      (c :: k, v)

/-- `url.ParseQuery` as used by `r.URL.Query()`: split on separators, skip
empty segments, cut each at the first `=`, percent-decode key and value,
and silently skip pairs that fail to decode. -/
def parseQuery (s : String) : Values :=
  (splitSeps s.toList).foldl
    (fun vs seg =>
      if seg.isEmpty then vs
      else
        let kv := cutEq seg
        match unescapeL kv.1, unescapeL kv.2 with
        | some k2, some v2 => valuesAdd vs ⟨k2⟩ ⟨v2⟩
        | _, _ => vs)
    []

/-- Lexicographic order on character lists, by code point; this agrees
with Go's byte-wise string comparison, since UTF-8 preserves code-point
order. -/
def charListLt : List Char → List Char → Bool
  | [], [] => false
  | [], _ :: _ => true
  | _ :: _, [] => false
  | c :: cs, d :: ds =>
    if c.toNat < d.toNat then true
    else if d.toNat < c.toNat then false
    else charListLt cs ds

def strLtB (s t : String) : Bool := charListLt s.toList t.toList

def strLeB (s t : String) : Bool := !strLtB t s

/-- Insert a key into a sorted key list (`sort.Strings` on the key set). -/
def insertSorted (k : String) : List String → List String
  | [] => [k]
  | x :: xs => if strLeB k x then k :: x :: xs else x :: insertSorted k xs

def sortKeys (ks : List String) : List String := ks.foldr insertSorted []

/-- The `key=value` segments of `url.Values.Encode`, in sorted key order. -/
def encSegs (q : Values) : List (List Char) :=
  (sortKeys (q.map Prod.fst)).flatMap
    (fun k =>
      ((valuesLookup q k).getD []).map
        (fun v => escapeL k.toList ++ '=' :: escapeL v.toList))

/-- Join segments with `&`. -/
def joinAmp : List (List Char) → List Char
  | [] => []
  | [s] => s
  | s :: rest => s ++ '&' :: joinAmp rest

/-- `url.Values.Encode`: keys sorted, keys and values query-escaped,
segments joined with `&`. -/
def valuesEncode (q : Values) : String := ⟨joinAmp (encSegs q)⟩

/-- The `&`/`;`-separated segments of a raw query string. -/
def querySegments (s : String) : List String := (splitSeps s.toList).map fun l => ⟨l⟩

/-! ## Rate-limit monitor

The `pkg/ratelimit` package itself is not part of the sources under
verification; only its caller is.  The monitor is therefore modelled from
the specification. -/

/-- Modelled from the spec: the `pkg/ratelimit` per-class
`RateLimitState` is a remaining count, a reset duration and a known flag;
`known=false` before any response has been observed for the class. -/
structure Monitor where
  known : Bool
  remaining : Int
  reset : Int
deriving DecidableEq, Repr

/-- A freshly constructed monitor, before any observation. -/
def Monitor.initial : Monitor := ⟨false, 0, 0⟩

/-- `Monitor.Get`: remaining count, reset duration, known flag. -/
def Monitor.rlGet (m : Monitor) : Int × Int × Bool := (m.remaining, m.reset, m.known)

/-- Modelled from the spec: the registry consults a remaining-quota or
reset-time header accepting both the canonical name and the legacy
`X-`-prefixed variant. -/
def monitorHeaderGet (h : Header) (base : String) : String :=
  let v := headerGet h ("X-" ++ base)
  if v ≠ "" then v else headerGet h base

/-- Modelled from the spec: `pkg/ratelimit` `Monitor.Update` (absent from
the sources under verification) parses the remaining-quota and reset-time
response headers, accepting both canonical and `X-`-prefixed names, and
overwrites the class state, marking it known. -/
def Monitor.update (m : Monitor) (h : Header) : Monitor :=
  let rem := monitorHeaderGet h "Ratelimit-Remaining"
  let rst := monitorHeaderGet h "Ratelimit-Reset"
  if rem = "" then m
  else
    { known := true
      remaining := (atoi rem).1
      reset := if rst = "" then m.reset else (atoi rst).1 }

/-! ## The request handler -/

/-- Inbound request, as seen by the handler. -/
structure Request where
  method : String
  path : String
  rawQuery : String
  header : Header
  body : String
deriving DecidableEq, Repr

/-- HTTP response: status code, headers, body bytes. -/
structure Response where
  status : Nat
  header : Header
  body : String
deriving DecidableEq, Repr

/-- Outbound request built by the handler (scheme/host rewritten to the
upstream, query re-encoded, allow-listed headers). -/
structure OutRequest where
  method : String
  scheme : String
  host : String
  path : String
  rawQuery : String
  header : Header
  body : String
deriving DecidableEq, Repr

/-- The lazily populated `map[string]*ratelimit.Monitor`. -/
abbrev Monitors := List (String × Monitor)

def monitorsGet : Monitors → String → Option Monitor
  | [], _ => none
  | (k2, m) :: rest, k => if k2 = k then some m else monitorsGet rest k

def monitorsSet : Monitors → String → Monitor → Monitors
  | [], k, m => [(k, m)]
  | (k2, m2) :: rest, k, m =>
    if k2 = k then (k2, m) :: rest else (k2, m2) :: monitorsSet rest k m

/-- Everything the handler produced for one request: the response written
to the caller, the upstream calls performed, and the updated monitor table
and gauge. -/
structure HandlerResult where
  response : Response
  upstreamCalls : List OutRequest
  monitors : Monitors
  gauge : String → Int

/-- `http.Error`: plain-text error response; the body is the message plus
a newline. -/
def httpError (msg : String) (code : Nat) : Response :=
  { status := code
    header := [("Content-Type", ["text/plain; charset=utf-8"]),
               ("X-Content-Type-Options", ["nosniff"])]
    body := msg ++ "\n" }

/-- `strings.HasPrefix` on character lists. -/
def hasPrefixL : List Char → List Char → Bool
  | _, [] => true
  | [], _ :: _ => false
  | c :: cs, p :: ps => c = p && hasPrefixL cs ps

/-- `strings.HasPrefix`. -/
def hasPrefixStr (s p : String) : Bool := hasPrefixL s.toList p.toList

/-- Resource classification from the inbound path: `/search/` prefixed
paths are `search`, the exact path `/graphql` is `graphql`, everything
else is `core`. -/
def classify (path : String) : String :=
  if hasPrefixStr path "/search/" then "search"
  else if path = "/graphql" then "graphql"
  else "core"

/-- The lazy monitor creation `if monitors[resource] == nil` in the
handler. -/
def ensureMonitor (ms : Monitors) (resource : String) : Monitors :=
  if (monitorsGet ms resource).isNone then monitorsSet ms resource Monitor.initial
  else ms

/-- The admission-control condition
`rateLimitKnown && (rateLimitRemaining < 1 && rateLimitReset > 0)`. -/
def rejectCond (m : Monitor) : Bool :=
  m.known && (decide (m.remaining < 1) && decide (0 < m.reset))

/-- The message of the forbidden response:
`rate limit for "<resource>" exceeded, reset at <nextTime>`. -/
def rateLimitMessage (resource : String) (nextTime : Int) : String :=
  "rate limit for \"" ++ resource ++ "\" exceeded, reset at " ++ toString nextTime

/-- The allow-listed outbound header set: `User-Agent`, `Accept` and
`Content-Type` always, `Authorization` only when present. -/
def buildH2 (h : Header) : Header :=
  let h2 : Header := []
  let h2 := headerSet h2 "User-Agent" (headerGet h "User-Agent")
  let h2 := headerSet h2 "Accept" (headerGet h "Accept")
  let h2 := headerSet h2 "Content-Type" (headerGet h "Content-Type")
  if headerGet h "Authorization" ≠ "" then
    headerSet h2 "Authorization" (headerGet h "Authorization")
  else h2

/-- The published `authenticateRequest` closure: when configured it sets
`client_id` and `client_secret` on the outbound query. -/
def injectAuth (auth : Option (String × String)) (q : Values) : Values :=
  match auth with
  | some (clientID, clientSecret) =>
    valuesSet (valuesSet q "client_id" clientID) "client_secret" clientSecret
  | none => q

/-- The outbound request `req2`: method and body forwarded, scheme/host
rewritten to the upstream, path preserved, query re-encoded with the
injected credentials, allow-listed headers. -/
def buildReq (auth : Option (String × String)) (r : Request) : OutRequest :=
  { method := r.method
    scheme := "https"
    host := "api.github.com"
    path := r.path
    rawQuery := valuesEncode (injectAuth auth (parseQuery r.rawQuery))
    header := buildH2 r.header
    body := r.body }

/-- Pointwise update of the gauge function (`GaugeVec.Set`). -/
def setGauge (g : String → Int) (k : String) (v : Int) : String → Int :=
  fun k2 => if k2 = k then v else g k2

/-- The github-proxy request handler.  Mirrors the `http.HandlerFunc` in
`main`: classify the path, lazily create the class monitor, admission
check against the monitor, build and authenticate the outbound request,
forward it (the serialization of the actual network call is treated
separately), and on success update the monitor and the gauge and relay
status, headers and body unchanged; on transport error answer 500 with
the error text.  The final branch mirrors the buffer-then-log path taken
for error statuses under verbose logging, which relays the identical
bytes. -/
def handle (logRequests : Bool) (auth : Option (String × String))
    (monitors0 : Monitors) (gauge : String → Int) (now : Int)
    (upstream : OutRequest → Except String Response) (r : Request) :
    HandlerResult :=
  let resource := classify r.path
  let monitors := ensureMonitor monitors0 resource
  let rateLimit := (monitorsGet monitors resource).getD Monitor.initial
  if rejectCond rateLimit then
    { response := httpError (rateLimitMessage resource (now + rateLimit.reset)) 403
      upstreamCalls := []
      monitors := monitors
      gauge := gauge }
  else
    let req2 := buildReq auth r
    match upstream req2 with
    | .error e =>
      { response := httpError e 500
        upstreamCalls := [req2]
        monitors := monitors
        gauge := gauge }
    | .ok resp =>
      let monitors := monitorsSet monitors resource (rateLimit.update resp.header)
      let limit := headerGet resp.header "X-Ratelimit-Remaining"
      let gauge := if limit ≠ "" then setGauge gauge resource (atoi limit).1 else gauge
      if resp.status < 400 || !logRequests then
        { response := { status := resp.status, header := resp.header, body := resp.body }
          upstreamCalls := [req2]
          monitors := monitors
          gauge := gauge }
      else
        { response := { status := resp.status, header := resp.header, body := resp.body }
          upstreamCalls := [req2]
          monitors := monitors
          gauge := gauge }

/-- The admission-control rejection test as a function of the initial
monitor table and the inbound path. -/
def admissionRejects (ms : Monitors) (path : String) : Bool :=
  rejectCond ((monitorsGet (ensureMonitor ms (classify path)) (classify path)).getD Monitor.initial)

/-! ## Basic lemmas about the monitor table -/

theorem monitorsGet_set_self (ms : Monitors) (k : String) (m : Monitor) :
    monitorsGet (monitorsSet ms k m) k = some m := by
  induction ms with
  | nil => simp [monitorsSet, monitorsGet]
  | cons hd tl ih =>
    obtain ⟨k2, m2⟩ := hd
    by_cases h : k2 = k <;> simp [monitorsSet, monitorsGet, h, ih]

theorem monitorsGet_set_ne (ms : Monitors) (k k2 : String) (m : Monitor)
    (h : k2 ≠ k) : monitorsGet (monitorsSet ms k m) k2 = monitorsGet ms k2 := by
  induction ms with
  | nil => simp [monitorsSet, monitorsGet, Ne.symm h]
  | cons hd tl ih =>
    obtain ⟨k3, m3⟩ := hd
    by_cases h3 : k3 = k
    · subst h3
      simp [monitorsSet, monitorsGet, Ne.symm h]
    · simp [monitorsSet, monitorsGet, h3, ih]

theorem ensureMonitor_of_some (ms : Monitors) (resource : String) (m : Monitor)
    (h : monitorsGet ms resource = some m) : ensureMonitor ms resource = ms := by
  unfold ensureMonitor
  rw [h]
  rfl

theorem monitorsGet_ensure_self (ms : Monitors) (resource : String) :
    monitorsGet (ensureMonitor ms resource) resource =
      some ((monitorsGet ms resource).getD Monitor.initial) := by
  unfold ensureMonitor
  cases h : monitorsGet ms resource with
  | none => simp [h, monitorsGet_set_self]
  | some m => simp [h]

theorem monitorsGet_ensure_of_some (ms : Monitors) (resource c : String) (m : Monitor)
    (h : monitorsGet ms c = some m) :
    monitorsGet (ensureMonitor ms resource) c = some m := by
  unfold ensureMonitor
  cases hr : monitorsGet ms resource with
  | none =>
    have hne : c ≠ resource := fun he => by rw [he, hr] at h; exact Option.noConfusion h
    simp [monitorsGet_set_ne _ _ _ _ hne, h]
  | some m2 => simp [h]

/-! ## C1: admission rejection -/

/-- C1: for every inbound request whose resource class has `known=true`,
`remaining<1` and `resetDuration>0` in the rate-limit registry at
classification time, the handler returns a 403 response whose plain-text
body is `rate limit for "<resource>" exceeded, reset at <now+reset>` plus
the newline appended by `http.Error`, and performs zero upstream calls. -/
theorem claim1_admission_rejected (lr : Bool) (auth : Option (String × String))
    (ms : Monitors) (g : String → Int) (now : Int)
    (up : OutRequest → Except String Response) (r : Request) (m : Monitor)
    (hm : monitorsGet ms (classify r.path) = some m)
    (hk : m.known = true) (hr : m.remaining < 1) (hz : 0 < m.reset) :
    (handle lr auth ms g now up r).response.status = 403 ∧
    (handle lr auth ms g now up r).response.body =
      rateLimitMessage (classify r.path) (now + m.reset) ++ "\n" ∧
    (handle lr auth ms g now up r).upstreamCalls = [] := by
  have hres := ensureMonitor_of_some ms (classify r.path) m hm
  have hcond : rejectCond m = true := by simp [rejectCond, hk, hr, hz]
  simp [handle, hres, hm, hcond, httpError]

theorem claim1_witness :
    (monitorsGet [("core", (⟨true, 0, 5⟩ : Monitor))] (classify "/x") =
        some (⟨true, 0, 5⟩ : Monitor)) ∧
    (handle false none [("core", ⟨true, 0, 5⟩)] (fun _ => 0) 7
        (fun _ => Except.error "e") ⟨"GET", "/x", "", [], ""⟩).response.status = 403 ∧
    (handle false none [("core", ⟨true, 0, 5⟩)] (fun _ => 0) 7
        (fun _ => Except.error "e") ⟨"GET", "/x", "", [], ""⟩).response.body =
      rateLimitMessage (classify "/x") (7 + 5) ++ "\n" ∧
    (handle false none [("core", ⟨true, 0, 5⟩)] (fun _ => 0) 7
        (fun _ => Except.error "e") ⟨"GET", "/x", "", [], ""⟩).upstreamCalls = [] :=
  ⟨by decide,
   claim1_admission_rejected false none [("core", ⟨true, 0, 5⟩)] (fun _ => 0) 7
     (fun _ => Except.error "e") ⟨"GET", "/x", "", [], ""⟩ ⟨true, 0, 5⟩
     (by decide) rfl (by decide) (by decide)⟩

/-! ## C4: resource classification -/

/-- C4: resource classification is a deterministic total function of the
inbound path: every path with prefix `/search/` maps to `search`, the
exact path `/graphql` maps to `graphql`, and every other path maps to
`core`. -/
theorem claim4_classification (p : String) :
    (hasPrefixStr p "/search/" = true → classify p = "search") ∧
    (p = "/graphql" → classify p = "graphql") ∧
    (hasPrefixStr p "/search/" = false → p ≠ "/graphql" → classify p = "core") := by
  refine ⟨fun h => by simp [classify, h], fun h => ?_, fun h1 h2 => by simp [classify, h1, h2]⟩
  subst h
  rfl

theorem claim4_witness :
    classify "/search/x" = "search" ∧ classify "/graphql" = "graphql" ∧
    classify "/foo" = "core" :=
  ⟨(claim4_classification "/search/x").1 (by decide),
   (claim4_classification "/graphql").2.1 rfl,
   (claim4_classification "/foo").2.2 (by decide) (by decide)⟩

/-! ## C3: relay fidelity -/

/-- C3: for every upstream response successfully received, the handler
relays it unchanged: the upstream headers are copied verbatim, the
upstream status code is written and the body bytes reach the caller
unmodified. -/
theorem claim3_relay_fidelity (lr : Bool) (auth : Option (String × String))
    (ms : Monitors) (g : String → Int) (now : Int) (resp : Response) (r : Request)
    (hadm : admissionRejects ms r.path = false) :
    (handle lr auth ms g now (fun _ => Except.ok resp) r).response = resp := by
  unfold admissionRejects at hadm
  simp only [handle]
  rw [hadm]
  simp

theorem claim3_witness :
    admissionRejects [] "/x" = false ∧
    (handle false none [] (fun _ => 0) 0
        (fun _ => Except.ok ⟨200, [("X-Test", ["1"])], "\x7b\"ok\":true\x7d"⟩)
        ⟨"GET", "/x", "", [], ""⟩).response =
      ⟨200, [("X-Test", ["1"])], "\x7b\"ok\":true\x7d"⟩ :=
  ⟨by decide,
   claim3_relay_fidelity false none [] (fun _ => 0) 0
     ⟨200, [("X-Test", ["1"])], "\x7b\"ok\":true\x7d"⟩ ⟨"GET", "/x", "", [], ""⟩ (by decide)⟩

/-! ## C8: logging transparency -/

/-- C8: for every upstream outcome, the status code, headers and body
delivered to the caller are identical in the two runs that differ only in
whether verbose request logging is enabled. -/
theorem claim8_logging_transparency (auth : Option (String × String))
    (ms : Monitors) (g : String → Int) (now : Int)
    (up : OutRequest → Except String Response) (r : Request) :
    (handle true auth ms g now up r).response =
      (handle false auth ms g now up r).response := by
  unfold handle
  by_cases hc :
      rejectCond ((monitorsGet (ensureMonitor ms (classify r.path))
        (classify r.path)).getD Monitor.initial) = true
  · simp [hc]
  · simp only [Bool.not_eq_true] at hc
    cases hup : up (buildReq auth r) with
    | error e => simp [hc, hup]
    | ok resp => simp [hc, hup]

/-! ## C9: upstream transport failure -/

/-- C9: for every request on which the upstream transport call fails, the
handler responds 500 with the error text as body, performs exactly one
upstream attempt (no retry), and performs no registry or gauge update:
the gauge is returned unchanged and the monitor table differs from the
initial one only by the admission step's creation of a fresh monitor —
every monitor present before the request is returned untouched. -/
theorem claim9_transport_error (lr : Bool) (auth : Option (String × String))
    (ms : Monitors) (g : String → Int) (now : Int) (e : String) (r : Request)
    (hadm : admissionRejects ms r.path = false) :
    (handle lr auth ms g now (fun _ => Except.error e) r).response.status = 500 ∧
    (handle lr auth ms g now (fun _ => Except.error e) r).response.body = e ++ "\n" ∧
    (handle lr auth ms g now (fun _ => Except.error e) r).upstreamCalls =
      [buildReq auth r] ∧
    (handle lr auth ms g now (fun _ => Except.error e) r).gauge = g ∧
    (handle lr auth ms g now (fun _ => Except.error e) r).monitors =
      ensureMonitor ms (classify r.path) ∧
    (∀ c m, monitorsGet ms c = some m →
      monitorsGet (handle lr auth ms g now (fun _ => Except.error e) r).monitors c =
        some m) := by
  unfold admissionRejects at hadm
  simp only [handle]
  rw [hadm]
  simp [httpError]
  exact fun c m hm => monitorsGet_ensure_of_some ms (classify r.path) c m hm

theorem claim9_witness :
    admissionRejects [] "/x" = false ∧
    (handle false none [] (fun _ => 0) 0 (fun _ => Except.error "dial tcp: timeout")
        ⟨"GET", "/x", "", [], ""⟩).response.status = 500 ∧
    (handle false none [] (fun _ => 0) 0 (fun _ => Except.error "dial tcp: timeout")
        ⟨"GET", "/x", "", [], ""⟩).response.body = "dial tcp: timeout" ++ "\n" ∧
    (handle false none [] (fun _ => 0) 0 (fun _ => Except.error "dial tcp: timeout")
        ⟨"GET", "/x", "", [], ""⟩).upstreamCalls = [buildReq none ⟨"GET", "/x", "", [], ""⟩] ∧
    (handle false none [] (fun _ => 0) 0 (fun _ => Except.error "dial tcp: timeout")
        ⟨"GET", "/x", "", [], ""⟩).gauge = (fun _ => 0) := by
  have h := claim9_transport_error false none [] (fun _ => 0) 0 "dial tcp: timeout"
    ⟨"GET", "/x", "", [], ""⟩ (by decide)
  exact ⟨by decide, h.1, h.2.1, h.2.2.1, h.2.2.2.1⟩

/-! ## C10: malformed remaining-quota header -/

/-- C10: if an upstream response carries an `X-Ratelimit-Remaining`
header whose value is non-empty but not a valid integer, the gauge for
that resource class is set to 0 (the `strconv.Atoi` error is discarded),
not left at its previous value. -/
theorem claim10_bad_header_gauge_zero (lr : Bool) (auth : Option (String × String))
    (ms : Monitors) (g : String → Int) (now : Int) (resp : Response) (r : Request)
    (hadm : admissionRejects ms r.path = false)
    (hne : headerGet resp.header "X-Ratelimit-Remaining" ≠ "")
    (hbad : (atoi (headerGet resp.header "X-Ratelimit-Remaining")).2 = false) :
    (handle lr auth ms g now (fun _ => Except.ok resp) r).gauge (classify r.path) = 0 := by
  have h0 := atoi_bad_zero _ hbad
  unfold admissionRejects at hadm
  simp only [handle]
  rw [hadm]
  simp [hne, h0, setGauge]

theorem claim10_witness :
    admissionRejects [] "/x" = false ∧
    headerGet [("X-Ratelimit-Remaining", ["abc"])] "X-Ratelimit-Remaining" ≠ "" ∧
    (atoi "abc").2 = false ∧
    (handle false none [] (fun _ => 999) 0
        (fun _ => Except.ok ⟨200, [("X-Ratelimit-Remaining", ["abc"])], ""⟩)
        ⟨"GET", "/x", "", [], ""⟩).gauge (classify "/x") = 0 :=
  ⟨by decide, by decide, by decide,
   claim10_bad_header_gauge_zero false none [] (fun _ => 999) 0
     ⟨200, [("X-Ratelimit-Remaining", ["abc"])], ""⟩ ⟨"GET", "/x", "", [], ""⟩
     (by decide) (by decide) (by decide)⟩

/-! ## C6: bookkeeping header forms -/

/-- C6 counterexample: a response carrying only the canonical
(non-`X`-prefixed) remaining-quota header `Ratelimit-Remaining: 42`
updates the registry state for `core` to remaining=42, but the exported
gauge keeps its previous value 5000: the gauge update in the handler
consults only the `X-Ratelimit-Remaining` header, so the claim that
either header form sets the gauge is false. -/
theorem claim6_counterexample :
    monitorsGet (handle false none [] (fun _ => 5000) 0
        (fun _ => Except.ok ⟨200, [("Ratelimit-Remaining", ["42"])], ""⟩)
        ⟨"GET", "/x", "", [], ""⟩).monitors "core" = some ⟨true, 42, 0⟩ ∧
    (handle false none [] (fun _ => 5000) 0
        (fun _ => Except.ok ⟨200, [("Ratelimit-Remaining", ["42"])], ""⟩)
        ⟨"GET", "/x", "", [], ""⟩).gauge "core" = 5000 ∧
    (5000 : Int) ≠ 42 := by decide

/-- C6 amended: the registry `Update` (modelled from the spec, since
`pkg/ratelimit` is outside the verified sources) accepts both the
canonical and the `X`-prefixed remaining-quota header, so either form
with value 42 updates `Get` for the class to remaining=42; the exported
gauge however is updated only when the `X`-prefixed header is present —
when only the canonical form is present the gauge function is returned
unchanged. -/
theorem claim6_amended (lr : Bool) (auth : Option (String × String))
    (ms : Monitors) (g : String → Int) (now : Int) (resp : Response) (r : Request)
    (hadm : admissionRejects ms r.path = false) :
    (headerGet resp.header "X-Ratelimit-Remaining" = "42" →
      (monitorsGet (handle lr auth ms g now (fun _ => Except.ok resp) r).monitors
          (classify r.path)).map Monitor.remaining = some 42 ∧
      (handle lr auth ms g now (fun _ => Except.ok resp) r).gauge (classify r.path) = 42) ∧
    (headerGet resp.header "X-Ratelimit-Remaining" = "" →
      headerGet resp.header "Ratelimit-Remaining" = "42" →
      (monitorsGet (handle lr auth ms g now (fun _ => Except.ok resp) r).monitors
          (classify r.path)).map Monitor.remaining = some 42 ∧
      (handle lr auth ms g now (fun _ => Except.ok resp) r).gauge = g) := by
  unfold admissionRejects at hadm
  constructor
  · intro h1
    have hmon : monitorHeaderGet resp.header "Ratelimit-Remaining" = "42" := by
      simp [monitorHeaderGet, h1]
    simp only [handle]
    rw [hadm]
    simp [h1, hmon, Monitor.update, monitorsGet_set_self, setGauge, atoi, digitsVal,
      digitsValAux]
  · intro h1 h2
    have hmon : monitorHeaderGet resp.header "Ratelimit-Remaining" = "42" := by
      simp [monitorHeaderGet, h1, h2]
    simp only [handle]
    rw [hadm]
    simp [h1, hmon, Monitor.update, monitorsGet_set_self, atoi, digitsVal, digitsValAux]

theorem claim6_witness :
    admissionRejects [] "/x" = false ∧
    headerGet [("X-Ratelimit-Remaining", ["42"])] "X-Ratelimit-Remaining" = "42" ∧
    (monitorsGet (handle false none [] (fun _ => 5000) 0
        (fun _ => Except.ok ⟨200, [("X-Ratelimit-Remaining", ["42"])], ""⟩)
        ⟨"GET", "/x", "", [], ""⟩).monitors (classify "/x")).map Monitor.remaining =
      some 42 ∧
    (handle false none [] (fun _ => 5000) 0
        (fun _ => Except.ok ⟨200, [("X-Ratelimit-Remaining", ["42"])], ""⟩)
        ⟨"GET", "/x", "", [], ""⟩).gauge (classify "/x") = 42 := by
  have h := (claim6_amended false none [] (fun _ => 5000) 0
    ⟨200, [("X-Ratelimit-Remaining", ["42"])], ""⟩ ⟨"GET", "/x", "", [], ""⟩
    (by decide)).1 (by decide)
  exact ⟨by decide, by decide, h.1, h.2⟩

/-! ## C7: monitor-table lifecycle -/

/-- C7 counterexample: at startup the monitor table (`make(map[string]*
ratelimit.Monitor)` in `main`) is empty — no monitor for `core` exists —
and handling a single request for class `core` creates one: monitor
creation is triggered lazily by the first request, not done at startup,
so the claim is false. -/
theorem claim7_counterexample :
    monitorsGet ([] : Monitors) "core" = none ∧
    monitorsGet (handle false none [] (fun _ => 0) 0 (fun _ => Except.error "e")
        ⟨"GET", "/x", "", [], ""⟩).monitors "core" = some Monitor.initial := by decide

theorem monitorsGet_set_isSome (ms : Monitors) (k c : String) (m : Monitor)
    (h : (monitorsGet ms c).isSome = true) :
    (monitorsGet (monitorsSet ms k m) c).isSome = true := by
  by_cases hc : c = k
  · subst hc
    rw [monitorsGet_set_self]
    rfl
  · rw [monitorsGet_set_ne _ _ _ _ hc]
    exact h

/-- C7 amended: the monitor table starts empty and holds at most one
monitor per resource class, created lazily by the first request that maps
to that class (not at startup): after handling any request, a monitor for
that request's class exists, and every monitor entry present before the
request is still present afterwards; the spec's created-at-startup (and
hence race-free first use) guarantee does not hold for the code. -/
theorem claim7_amended (lr : Bool) (auth : Option (String × String))
    (ms : Monitors) (g : String → Int) (now : Int)
    (up : OutRequest → Except String Response) (r : Request) :
    (monitorsGet (handle lr auth ms g now up r).monitors (classify r.path)).isSome =
      true ∧
    (∀ c m, monitorsGet ms c = some m →
      (monitorsGet (handle lr auth ms g now up r).monitors c).isSome = true) := by
  have hens : (monitorsGet (ensureMonitor ms (classify r.path)) (classify r.path)).isSome
      = true := by
    rw [monitorsGet_ensure_self]
    rfl
  have hper : ∀ c m, monitorsGet ms c = some m →
      (monitorsGet (ensureMonitor ms (classify r.path)) c).isSome = true := by
    intro c m hm
    rw [monitorsGet_ensure_of_some ms (classify r.path) c m hm]
    rfl
  unfold handle
  by_cases hc :
      rejectCond ((monitorsGet (ensureMonitor ms (classify r.path))
        (classify r.path)).getD Monitor.initial) = true
  · simp only [hc, if_true]
    exact ⟨hens, hper⟩
  · simp only [Bool.not_eq_true] at hc
    simp only [hc, Bool.false_eq_true, if_false]
    cases hup : up (buildReq auth r) with
    | error e => exact ⟨hens, hper⟩
    | ok resp =>
      constructor
      · by_cases hlog : resp.status < 400 || !lr
        · simp only [hlog, if_true]
          rw [monitorsGet_set_self]
          rfl
        · simp only [Bool.not_eq_true] at hlog
          simp only [hlog, Bool.false_eq_true, if_false]
          rw [monitorsGet_set_self]
          rfl
      · intro c m hm
        by_cases hlog : resp.status < 400 || !lr
        · simp only [hlog, if_true]
          exact monitorsGet_set_isSome _ _ _ _ (hper c m hm)
        · simp only [Bool.not_eq_true] at hlog
          simp only [hlog, Bool.false_eq_true, if_false]
          exact monitorsGet_set_isSome _ _ _ _ (hper c m hm)

theorem claim7_witness :
    (monitorsGet (handle false none [] (fun _ => 0) 0 (fun _ => Except.error "e")
        ⟨"GET", "/y", "", [], ""⟩).monitors (classify "/y")).isSome = true :=
  (claim7_amended false none [] (fun _ => 0) 0 (fun _ => Except.error "e")
    ⟨"GET", "/y", "", [], ""⟩).1

/-! ## C2: the serialization gate

Interleaving model of the handler around the upstream call
(`requestMu.Lock(); resp, err := http.DefaultClient.Do(req2);
requestMu.Unlock()` followed by streaming the response body): each
concurrent request is a thread with a program counter, the mutex is
either free or held by a thread.  A thread acquires the mutex in the same
atomic step in which its upstream call starts (the gate is taken
immediately before the call), and the step in which the call returns
releases the mutex before the thread proceeds to streaming (the gate is
released immediately after the call, never held across body streaming). -/

inductive GPC where
  | start
  | inCall
  | streaming
  | done
deriving DecidableEq, Repr

structure GateState where
  mutex : Option Nat
  threads : List GPC
deriving DecidableEq, Repr

/-- All threads before their upstream call, mutex free. -/
def gateInit (n : Nat) : GateState := ⟨none, List.replicate n .start⟩

/-- One interleaving step of the handler around the serialization gate. -/
inductive GateStep : GateState → GateState → Prop where
  | lock (s : GateState) (i : Nat) (hi : i < s.threads.length)
      (hpc : s.threads[i] = .start) (hm : s.mutex = none) :
      GateStep s ⟨some i, s.threads.set i .inCall⟩
  | callReturns (s : GateState) (i : Nat) (hi : i < s.threads.length)
      (hpc : s.threads[i] = .inCall) :
      GateStep s ⟨none, s.threads.set i .streaming⟩
  | streamDone (s : GateState) (i : Nat) (hi : i < s.threads.length)
      (hpc : s.threads[i] = .streaming) :
      GateStep s ⟨s.mutex, s.threads.set i .done⟩

/-- Reachability from the initial state with `n` concurrent requests. -/
def GateReachable (n : Nat) (s : GateState) : Prop :=
  Relation.ReflTransGen GateStep (gateInit n) s

/-- The gate invariant: a thread is inside the upstream call exactly when
it holds the mutex. -/
def gateInv (s : GateState) : Prop :=
  ∀ i (hi : i < s.threads.length), (s.threads[i] = .inCall ↔ s.mutex = some i)

theorem gateInv_init (n : Nat) : gateInv (gateInit n) := by
  intro i hi
  constructor
  · intro h
    simp [gateInit] at h
  · intro h
    exact Option.noConfusion h

theorem gateInv_step {s t : GateState} (hs : gateInv s) (hst : GateStep s t) :
    gateInv t := by
  cases hst with
  | lock i hi hpc hm =>
    intro j hj
    simp only [List.length_set] at hj
    by_cases hij : i = j
    · subst hij
      simp
    · simp only [List.getElem_set_ne hij]
      constructor
      · intro h
        have hmx := (hs j hj).mp h
        rw [hm] at hmx
        exact Option.noConfusion hmx
      · intro h
        exact absurd (Option.some.inj h) hij
  | callReturns i hi hpc =>
    intro j hj
    simp only [List.length_set] at hj
    constructor
    · intro h
      by_cases hij : i = j
      · subst hij
        simp at h
      · simp only [List.getElem_set_ne hij] at h
        have hjm := (hs j hj).mp h
        have him := (hs i hi).mp hpc
        rw [him] at hjm
        exact absurd (Option.some.inj hjm) hij
    · intro h
      exact Option.noConfusion h
  | streamDone i hi hpc =>
    intro j hj
    simp only [List.length_set] at hj
    by_cases hij : i = j
    · subst hij
      simp only [List.getElem_set_self]
      constructor
      · intro h
        exact GPC.noConfusion h
      · intro h
        have h2 := (hs i hj).mpr h
        rw [hpc] at h2
        exact GPC.noConfusion h2
    · simp only [List.getElem_set_ne hij]
      exact hs j hj

theorem gateInv_reachable {n : Nat} {s : GateState} (h : GateReachable n s) :
    gateInv s := by
  induction h with
  | refl => exact gateInv_init n
  | tail _ hstep ih => exact gateInv_step ih hstep

/-- C2: in every state reachable by interleaving concurrent requests, at
most one thread is inside the upstream network call (the gate serializes
the upstream calls globally, across all resource classes); a thread
inside the call holds the mutex (by the step relation the gate is
acquired in the step that starts the call and released in the step in
which the call returns); and no thread that is streaming the response
body back holds the mutex. -/
theorem claim2_serialization (n : Nat) (s : GateState) (hs : GateReachable n s) :
    (∀ i j (hi : i < s.threads.length) (hj : j < s.threads.length),
      s.threads[i] = .inCall → s.threads[j] = .inCall → i = j) ∧
    (∀ i (hi : i < s.threads.length),
      s.threads[i] = .inCall → s.mutex = some i) ∧
    (∀ i (hi : i < s.threads.length),
      s.threads[i] = .streaming → s.mutex ≠ some i) := by
  have hinv := gateInv_reachable hs
  refine ⟨?_, ?_, ?_⟩
  · intro i j hi hj h1 h2
    have m1 := (hinv i hi).mp h1
    have m2 := (hinv j hj).mp h2
    rw [m1] at m2
    exact Option.some.inj m2
  · intro i hi h
    exact (hinv i hi).mp h
  · intro i hi h hm
    have h2 := (hinv i hi).mpr hm
    rw [h] at h2
    exact GPC.noConfusion h2

theorem claim2_witness :
    (⟨some 0, [GPC.inCall, GPC.start]⟩ : GateState).mutex = some 0 :=
  (claim2_serialization 2 ⟨some 0, [GPC.inCall, GPC.start]⟩
      (Relation.ReflTransGen.single
        (show GateStep (gateInit 2) ⟨some 0, [GPC.inCall, GPC.start]⟩ from
          GateStep.lock (gateInit 2) 0 (by decide) rfl rfl))).2.1
    0 (by decide) rfl

/-! ## C5: credential injection and query re-encoding -/

/-- C5 counterexample: with no configuration published the outbound
query is the parse-then-re-encode of the inbound query, which sorts the
parameters by key: for the inbound query `b=2&a=1` the single outbound
call carries `a=1&b=2`, which is not byte-identical to the inbound query,
so the claim is false. -/
theorem claim5_counterexample :
    (handle false none [] (fun _ => 0) 0 (fun _ => Except.error "e")
        ⟨"GET", "/x", "b=2&a=1", [], ""⟩).upstreamCalls.map OutRequest.rawQuery =
      ["a=1&b=2"] ∧
    ("a=1&b=2" : String) ≠ "b=2&a=1" := by decide

theorem hexUpper_fin_notSep : ∀ m : Fin 16, isSep (hexUpper m.val) = false := by decide

theorem hexUpper_notSep (n : Nat) (h : n < 16) : isSep (hexUpper n) = false :=
  hexUpper_fin_notSep ⟨n, h⟩

theorem charBytes_lt (c : Char) : ∀ b ∈ charBytes c, b < 256 := by
  intro b hb
  unfold charBytes at hb
  by_cases h1 : c.toNat < 128
  · simp [h1] at hb
    omega
  · by_cases h2 : c.toNat < 2048
    · simp [h1, h2] at hb
      rcases hb with hb | hb <;> omega
    · by_cases h3 : c.toNat < 65536
      · simp [h1, h2, h3] at hb
        rcases hb with hb | hb | hb <;> omega
      · simp [h1, h2, h3] at hb
        rcases hb with hb | hb | hb | hb <;> omega

theorem char_notSep_of_notEscaped (c : Char) (hesc : shouldEscapeQuery c = false) :
    isSep c = false := by
  cases h : isSep c
  · rfl
  · exfalso
    have hor : c = '&' ∨ c = ';' := by simpa [isSep] using h
    rcases hor with h2 | h2 <;> subst h2 <;> exact absurd hesc (by decide)

theorem escapeChar_noSep (c : Char) : ∀ x ∈ escapeChar c, isSep x = false := by
  intro x hx
  unfold escapeChar at hx
  by_cases hsp : c = ' '
  · rw [if_pos hsp] at hx
    rw [List.mem_singleton.mp hx]
    decide
  · rw [if_neg hsp] at hx
    by_cases hesc : shouldEscapeQuery c = true
    · rw [if_pos hesc, List.mem_flatMap] at hx
      obtain ⟨b, hb, hxb⟩ := hx
      have hblt := charBytes_lt c b hb
      simp only [List.mem_cons, List.not_mem_nil, or_false] at hxb
      rcases hxb with hxb | hxb | hxb
      · rw [hxb]
        decide
      · rw [hxb]
        exact hexUpper_notSep _ (by omega)
      · rw [hxb]
        exact hexUpper_notSep _ (Nat.mod_lt _ (by omega))
    · have hesc2 : shouldEscapeQuery c = false := by simpa using hesc
      rw [if_neg hesc] at hx
      rw [List.mem_singleton.mp hx]
      exact char_notSep_of_notEscaped c hesc2

theorem escapeL_noSep (s : List Char) : ∀ x ∈ escapeL s, isSep x = false := by
  induction s with
  | nil => intro x hx; simp [escapeL] at hx
  | cons c rest ih =>
    intro x hx
    have : x ∈ escapeChar c ++ escapeL rest := hx
    rcases List.mem_append.mp this with h | h
    · exact escapeChar_noSep c x h
    · exact ih x h

theorem splitSeps_noSep (s : List Char) (h : ∀ c ∈ s, isSep c = false) :
    splitSeps s = [s] := by
  induction s with
  | nil => rfl
  | cons c rest ih =>
    have hc : isSep c = false := h c (List.mem_cons_self c rest)
    have hrest := ih fun x hx => h x (List.mem_cons_of_mem c hx)
    simp [splitSeps, hc, hrest]

theorem splitSeps_append (s t : List Char) (h : ∀ c ∈ s, isSep c = false) :
    splitSeps (s ++ '&' :: t) = s :: splitSeps t := by
  induction s with
  | nil => simp [splitSeps, isSep]
  | cons c rest ih =>
    have hc : isSep c = false := h c (List.mem_cons_self c rest)
    have hrest := ih fun x hx => h x (List.mem_cons_of_mem c hx)
    simp [splitSeps, hc, hrest]

theorem splitSeps_joinAmp (segs : List (List Char)) (hne : segs ≠ [])
    (h : ∀ seg ∈ segs, ∀ c ∈ seg, isSep c = false) :
    splitSeps (joinAmp segs) = segs := by
  induction segs with
  | nil => exact absurd rfl hne
  | cons s rest ih =>
    cases rest with
    | nil =>
      exact splitSeps_noSep s (h s (List.mem_cons_self s []))
    | cons s2 rest2 =>
      have hjoin : joinAmp (s :: s2 :: rest2) = s ++ '&' :: joinAmp (s2 :: rest2) := rfl
      rw [hjoin, splitSeps_append s _ (h s (List.mem_cons_self s _)),
        ih (by simp) fun seg hseg c hc => h seg (List.mem_cons_of_mem s hseg) c hc]

theorem valuesLookup_set_self (q : Values) (k v : String) :
    valuesLookup (valuesSet q k v) k = some [v] := by
  induction q with
  | nil => simp [valuesSet, valuesLookup]
  | cons hd tl ih =>
    obtain ⟨k2, vs2⟩ := hd
    by_cases h : k2 = k <;> simp [valuesSet, valuesLookup, h, ih]

theorem valuesLookup_set_ne (q : Values) (k k2 v : String) (h : k2 ≠ k) :
    valuesLookup (valuesSet q k v) k2 = valuesLookup q k2 := by
  induction q with
  | nil => simp [valuesSet, valuesLookup, Ne.symm h]
  | cons hd tl ih =>
    obtain ⟨k3, vs3⟩ := hd
    by_cases h3 : k3 = k
    · subst h3
      simp [valuesSet, valuesLookup, Ne.symm h]
    · simp [valuesSet, valuesLookup, h3, ih]

theorem valuesLookup_some_mem (q : Values) (k : String) (vs : List String)
    (h : valuesLookup q k = some vs) : k ∈ q.map Prod.fst := by
  induction q with
  | nil => simp [valuesLookup] at h
  | cons hd tl ih =>
    obtain ⟨k2, vs2⟩ := hd
    by_cases h2 : k2 = k
    · subst h2
      simp
    · simp only [valuesLookup, if_neg h2] at h
      simp [ih h]

theorem mem_insertSorted_self (k : String) (l : List String) :
    k ∈ insertSorted k l := by
  induction l with
  | nil => simp [insertSorted]
  | cons x xs ih =>
    by_cases h : strLeB k x = true <;> simp [insertSorted, h, ih]

theorem mem_insertSorted_of_mem (k x : String) (l : List String) (h : x ∈ l) :
    x ∈ insertSorted k l := by
  induction l with
  | nil => simp at h
  | cons y ys ih =>
    by_cases hk : strLeB k y = true
    · simp [insertSorted, hk, h]
    · rcases List.mem_cons.mp h with h2 | h2
      · simp [insertSorted, hk, h2]
      · simp [insertSorted, hk, ih h2]

theorem mem_sortKeys (k : String) (ks : List String) (h : k ∈ ks) :
    k ∈ sortKeys ks := by
  induction ks with
  | nil => simp at h
  | cons x xs ih =>
    rcases List.mem_cons.mp h with h2 | h2
    · subst h2
      exact mem_insertSorted_self k (sortKeys xs)
    · exact mem_insertSorted_of_mem x k (sortKeys xs) (ih h2)

theorem mem_encSegs (q : Values) (k v : String) (vs : List String)
    (hl : valuesLookup q k = some vs) (hv : v ∈ vs) :
    (escapeL k.toList ++ '=' :: escapeL v.toList) ∈ encSegs q := by
  unfold encSegs
  refine List.mem_flatMap_of_mem (mem_sortKeys k _ (valuesLookup_some_mem q k vs hl)) ?_
  rw [hl]
  exact List.mem_map_of_mem _ hv

theorem encSegs_noSep (q : Values) :
    ∀ seg ∈ encSegs q, ∀ c ∈ seg, isSep c = false := by
  intro seg hseg c hc
  unfold encSegs at hseg
  rw [List.mem_flatMap] at hseg
  obtain ⟨k, _, hseg⟩ := hseg
  rw [List.mem_map] at hseg
  obtain ⟨v, _, hseg⟩ := hseg
  subst hseg
  rcases List.mem_append.mp hc with h | h
  · exact escapeL_noSep _ c h
  · rcases List.mem_cons.mp h with h2 | h2
    · subst h2
      decide
    · exact escapeL_noSep _ c h2

theorem seg_mem_querySegments (q : Values) (seg : List Char)
    (hseg : seg ∈ encSegs q) :
    (⟨seg⟩ : String) ∈ querySegments (valuesEncode q) := by
  unfold querySegments valuesEncode
  have hne : encSegs q ≠ [] := by
    intro h
    rw [h] at hseg
    exact absurd hseg (List.not_mem_nil seg)
  rw [show (String.mk (joinAmp (encSegs q))).toList = joinAmp (encSegs q) from rfl,
    splitSeps_joinAmp _ hne (encSegs_noSep q)]
  exact List.mem_map_of_mem _ hseg

theorem hexUpper_fin_notEq : ∀ m : Fin 16, hexUpper m.val ≠ '=' := by decide

theorem hexUpper_notEq (n : Nat) (h : n < 16) : hexUpper n ≠ '=' :=
  hexUpper_fin_notEq ⟨n, h⟩

theorem escapeChar_noEq (c : Char) : ∀ x ∈ escapeChar c, x ≠ '=' := by
  intro x hx
  unfold escapeChar at hx
  by_cases hsp : c = ' '
  · rw [if_pos hsp] at hx
    rw [List.mem_singleton.mp hx]
    decide
  · rw [if_neg hsp] at hx
    by_cases hesc : shouldEscapeQuery c = true
    · rw [if_pos hesc, List.mem_flatMap] at hx
      obtain ⟨b, hb, hxb⟩ := hx
      have hblt := charBytes_lt c b hb
      simp only [List.mem_cons, List.not_mem_nil, or_false] at hxb
      rcases hxb with hxb | hxb | hxb
      · rw [hxb]
        decide
      · rw [hxb]
        exact hexUpper_notEq _ (by omega)
      · rw [hxb]
        exact hexUpper_notEq _ (Nat.mod_lt _ (by omega))
    · rw [if_neg hesc] at hx
      rw [List.mem_singleton.mp hx]
      intro hc
      subst hc
      exact hesc (by decide)

theorem escapeL_noEq (s : List Char) : ∀ x ∈ escapeL s, x ≠ '=' := by
  induction s with
  | nil => intro x hx; simp [escapeL] at hx
  | cons c rest ih =>
    intro x hx
    rcases List.mem_append.mp hx with h | h
    · exact escapeChar_noEq c x h
    · exact ih x h

theorem charBytes_ne_nil (c : Char) : charBytes c ≠ [] := by
  unfold charBytes
  by_cases h1 : c.toNat < 128
  · simp [h1]
  · by_cases h2 : c.toNat < 2048
    · simp [h1, h2]
    · by_cases h3 : c.toNat < 65536 <;> simp [h1, h2, h3]

/-- Query-escaping is the identity on any string whose escaped form
contains neither `%` nor `+`: every character of such a string passed
through the unescaped branch. -/
theorem escapeL_self_of_clean (l : List Char)
    (hm : ∀ c ∈ escapeL l, c ≠ '%' ∧ c ≠ '+') : escapeL l = l := by
  induction l with
  | nil => rfl
  | cons c rest ih =>
    have hsplit : escapeL (c :: rest) = escapeChar c ++ escapeL rest := rfl
    by_cases hsp : c = ' '
    · exfalso
      have hchar : escapeChar c = ['+'] := by simp [escapeChar, hsp]
      have hmem : '+' ∈ escapeL (c :: rest) := by
        rw [hsplit, hchar]
        exact List.mem_append_left _ (by simp)
      exact (hm '+' hmem).2 rfl
    · by_cases hesc : shouldEscapeQuery c = true
      · exfalso
        have hchar : escapeChar c =
            (charBytes c).flatMap
              (fun b => ['%', hexUpper (b / 16), hexUpper (b % 16)]) := by
          simp [escapeChar, hsp, hesc]
        have hmem : '%' ∈ escapeL (c :: rest) := by
          rw [hsplit, hchar]
          refine List.mem_append_left _ ?_
          cases hcb : charBytes c with
          | nil => exact absurd hcb (charBytes_ne_nil c)
          | cons b bs =>
            exact List.mem_flatMap_of_mem (List.mem_cons_self b bs)
              (List.mem_cons_self _ _)
        exact (hm '%' hmem).1 rfl
      · have hchar : escapeChar c = [c] := by simp [escapeChar, hsp, hesc]
        have htail : ∀ x ∈ escapeL rest, x ≠ '%' ∧ x ≠ '+' := by
          intro x hx
          exact hm x (by rw [hsplit]; exact List.mem_append_right _ hx)
        rw [hsplit, hchar, ih htail]
        rfl

theorem cutEq_append (a b : List Char) (h : ∀ c ∈ a, c ≠ '=') :
    cutEq (a ++ '=' :: b) = (a, b) := by
  induction a with
  | nil => simp [cutEq]
  | cons c rest ih =>
    have hc : c ≠ '=' := h c (List.mem_cons_self c rest)
    have hrest := ih fun x hx => h x (List.mem_cons_of_mem c hx)
    simp [cutEq, hc, hrest]

theorem mem_of_mem_insertSorted (k x : String) (l : List String)
    (h : x ∈ insertSorted k l) : x = k ∨ x ∈ l := by
  induction l with
  | nil =>
    simp [insertSorted] at h
    exact Or.inl h
  | cons y ys ih =>
    by_cases hk : strLeB k y = true
    · rw [insertSorted, if_pos hk] at h
      rcases List.mem_cons.mp h with h2 | h2
      · exact Or.inl h2
      · exact Or.inr h2
    · rw [insertSorted, if_neg hk] at h
      rcases List.mem_cons.mp h with h2 | h2
      · exact Or.inr (h2 ▸ List.mem_cons_self y ys)
      · rcases ih h2 with h3 | h3
        · exact Or.inl h3
        · exact Or.inr (List.mem_cons_of_mem y h3)

theorem mem_of_mem_sortKeys (k : String) (ks : List String)
    (h : k ∈ sortKeys ks) : k ∈ ks := by
  induction ks with
  | nil => simp [sortKeys] at h
  | cons x xs ih =>
    rcases mem_of_mem_insertSorted x k (sortKeys xs) h with h2 | h2
    · exact h2 ▸ List.mem_cons_self x xs
    · exact List.mem_cons_of_mem x (ih h2)

theorem lookup_isSome_of_mem_keys (q : Values) (k : String)
    (h : k ∈ q.map Prod.fst) : ∃ vs, valuesLookup q k = some vs := by
  induction q with
  | nil => simp at h
  | cons hd tl ih =>
    obtain ⟨k2, vs2⟩ := hd
    by_cases h2 : k2 = k
    · exact ⟨vs2, by simp [valuesLookup, h2]⟩
    · have h3 : k ∈ tl.map Prod.fst := by
        rcases List.mem_cons.mp h with h4 | h4
        · exact absurd h4.symm h2
        · exact h4
      obtain ⟨vs, hvs⟩ := ih h3
      exact ⟨vs, by simp [valuesLookup, h2, hvs]⟩

/-- Every segment of the encoded query comes from a key/value pair of the
encoded `Values`. -/
theorem encSegs_mem_elim (q : Values) (seg : List Char) (hseg : seg ∈ encSegs q) :
    ∃ k vs v, valuesLookup q k = some vs ∧ v ∈ vs ∧
      seg = escapeL k.toList ++ '=' :: escapeL v.toList := by
  unfold encSegs at hseg
  rw [List.mem_flatMap] at hseg
  obtain ⟨k, hk, hseg⟩ := hseg
  obtain ⟨vs, hvs⟩ := lookup_isSome_of_mem_keys q k
    (mem_of_mem_sortKeys k _ hk)
  rw [hvs] at hseg
  rw [List.mem_map] at hseg
  obtain ⟨v, hv, hseg⟩ := hseg
  exact ⟨k, vs, v, hvs, by simpa using hv, hseg.symm⟩

/-- The key part of a raw query segment: the bytes before the first `=`
(`strings.Cut` semantics). -/
def segKey (seg : String) : String := ⟨(cutEq seg.toList).1⟩

/-- In an encoded query, a key that maps to exactly one value owns every
segment carrying that key: any segment of `valuesEncode q` whose key part
is `k0` is precisely `k0=v0`.  This is what distinguishes the overwrite
(`Set`) semantics from append (`Add`) semantics. -/
theorem querySegments_key_unique (q : Values) (k0 v0 : String)
    (hk : valuesLookup q k0 = some [v0])
    (hclean : ∀ c ∈ k0.toList, c ≠ '%' ∧ c ≠ '+')
    (seg : String) (hseg : seg ∈ querySegments (valuesEncode q))
    (hkey : segKey seg = k0) :
    seg = ⟨escapeL k0.toList ++ '=' :: escapeL v0.toList⟩ := by
  have hmem0 := mem_encSegs q k0 v0 [v0] hk (List.mem_singleton_self v0)
  have hne : encSegs q ≠ [] := by
    intro h
    rw [h] at hmem0
    exact absurd hmem0 (List.not_mem_nil _)
  unfold querySegments valuesEncode at hseg
  rw [show (String.mk (joinAmp (encSegs q))).toList = joinAmp (encSegs q) from rfl,
    splitSeps_joinAmp _ hne (encSegs_noSep q)] at hseg
  rw [List.mem_map] at hseg
  obtain ⟨segl, hsegl, hmk⟩ := hseg
  obtain ⟨k, vs, v, hlook, hv, hform⟩ := encSegs_mem_elim q segl hsegl
  subst hmk
  have hsegKey : segKey (⟨segl⟩ : String) = ⟨escapeL k.toList⟩ := by
    unfold segKey
    rw [show (String.mk segl).toList = segl from rfl, hform,
      cutEq_append _ _ (escapeL_noEq k.toList)]
  rw [hsegKey] at hkey
  have hlist : escapeL k.toList = k0.toList := by
    have := congrArg String.data hkey
    simpa using this
  have hkk0 : k = k0 := by
    have hclean2 : ∀ c ∈ escapeL k.toList, c ≠ '%' ∧ c ≠ '+' := by
      rw [hlist]
      exact hclean
    have hself := escapeL_self_of_clean k.toList hclean2
    apply String.ext
    rw [show k.data = k.toList from rfl, show k0.data = k0.toList from rfl,
      ← hself, hlist]
  subst hkk0
  rw [hk] at hlook
  have hvs : vs = [v0] := by
    injection hlook with h2
    exact h2.symm
  subst hvs
  have hvv0 : v = v0 := List.mem_singleton.mp hv
  subst hvv0
  rw [hform]

/-- Exactly which outbound calls a request can produce: none (admission
rejection), or the single built request. -/
theorem handle_calls (lr : Bool) (auth : Option (String × String)) (ms : Monitors)
    (g : String → Int) (now : Int) (up : OutRequest → Except String Response)
    (r : Request) :
    (handle lr auth ms g now up r).upstreamCalls = [] ∨
    (handle lr auth ms g now up r).upstreamCalls = [buildReq auth r] := by
  unfold handle
  by_cases hc :
      rejectCond ((monitorsGet (ensureMonitor ms (classify r.path))
        (classify r.path)).getD Monitor.initial) = true
  · simp [hc]
  · simp only [Bool.not_eq_true] at hc
    cases hup : up (buildReq auth r) with
    | error e => simp [hc, hup]
    | ok resp =>
      right
      simp only [hc, Bool.false_eq_true, if_false, hup]
      by_cases hlog : resp.status < 400 || !lr <;> simp [hlog]

/-- C5 amended: when the configuration `clientID=abc`, `clientSecret=def`
has been published, every outbound query string contains the parameters
`client_id=abc` and `client_secret=def` as complete `&`-separated
segments, overwriting same-named original parameters: every outbound
segment whose key part is `client_id` (resp. `client_secret`) is exactly
`client_id=abc` (resp. `client_secret=def`), so no original value under
those keys survives.  When no valid configuration has ever been
published, the outbound query string is the canonical re-encoding
(parse, sort keys, re-escape) of the inbound query string —
byte-identical to it whenever the inbound query is already in canonical
form, but not byte-identical in general. -/
theorem claim5_amended (lr : Bool) (ms : Monitors) (g : String → Int) (now : Int)
    (up : OutRequest → Except String Response) (r : Request) :
    (∀ req ∈ (handle lr (some ("abc", "def")) ms g now up r).upstreamCalls,
      ("client_id=abc" ∈ querySegments req.rawQuery ∧
       "client_secret=def" ∈ querySegments req.rawQuery) ∧
      (∀ seg ∈ querySegments req.rawQuery,
        (segKey seg = "client_id" → seg = "client_id=abc") ∧
        (segKey seg = "client_secret" → seg = "client_secret=def"))) ∧
    (∀ req ∈ (handle lr none ms g now up r).upstreamCalls,
      req.rawQuery = valuesEncode (parseQuery r.rawQuery) ∧
      (valuesEncode (parseQuery r.rawQuery) = r.rawQuery → req.rawQuery = r.rawQuery)) := by
  constructor
  · intro req hreq
    rcases handle_calls lr (some ("abc", "def")) ms g now up r with hcalls | hcalls
    · rw [hcalls] at hreq
      exact absurd hreq (List.not_mem_nil req)
    · rw [hcalls] at hreq
      have hreq2 : req = buildReq (some ("abc", "def")) r := by
        simpa using hreq
      subst hreq2
      have hq : buildReq (some ("abc", "def")) r =
          { method := r.method, scheme := "https", host := "api.github.com",
            path := r.path,
            rawQuery := valuesEncode (valuesSet (valuesSet (parseQuery r.rawQuery)
              "client_id" "abc") "client_secret" "def"),
            header := buildH2 r.header, body := r.body } := rfl
      rw [hq]
      set q2 := valuesSet (valuesSet (parseQuery r.rawQuery) "client_id" "abc")
        "client_secret" "def" with hq2
      have hid : valuesLookup q2 "client_id" = some ["abc"] := by
        rw [hq2, valuesLookup_set_ne _ _ _ _ (by decide), valuesLookup_set_self]
      have hsec : valuesLookup q2 "client_secret" = some ["def"] := by
        rw [hq2, valuesLookup_set_self]
      refine ⟨⟨?_, ?_⟩, ?_⟩
      · have hmem := mem_encSegs q2 "client_id" "abc" ["abc"] hid (by decide)
        have := seg_mem_querySegments q2 _ hmem
        simpa using this
      · have hmem := mem_encSegs q2 "client_secret" "def" ["def"] hsec (by decide)
        have := seg_mem_querySegments q2 _ hmem
        simpa using this
      · intro seg hseg
        constructor
        · intro hkey
          have := querySegments_key_unique q2 "client_id" "abc" hid (by decide)
            seg hseg hkey
          rw [this]
          decide
        · intro hkey
          have := querySegments_key_unique q2 "client_secret" "def" hsec (by decide)
            seg hseg hkey
          rw [this]
          decide
  · intro req hreq
    rcases handle_calls lr none ms g now up r with hcalls | hcalls
    · rw [hcalls] at hreq
      exact absurd hreq (List.not_mem_nil req)
    · rw [hcalls] at hreq
      have hreq2 : req = buildReq none r := by simpa using hreq
      subst hreq2
      exact ⟨rfl, fun h => h⟩

theorem claim5_witness :
    ("client_id=abc" ∈ querySegments (buildReq (some ("abc", "def"))
        ⟨"GET", "/x", "client_id=evil&b=2", [], ""⟩).rawQuery ∧
      "client_secret=def" ∈ querySegments (buildReq (some ("abc", "def"))
        ⟨"GET", "/x", "client_id=evil&b=2", [], ""⟩).rawQuery ∧
      "client_id=evil" ∉ querySegments (buildReq (some ("abc", "def"))
        ⟨"GET", "/x", "client_id=evil&b=2", [], ""⟩).rawQuery) ∧
    (buildReq none ⟨"GET", "/x", "client_id=evil&b=2", [], ""⟩).rawQuery =
      valuesEncode (parseQuery "client_id=evil&b=2") := by
  have hmem : buildReq (some ("abc", "def")) ⟨"GET", "/x", "client_id=evil&b=2", [], ""⟩
      ∈ (handle false (some ("abc", "def")) [] (fun _ => 0) 0
        (fun _ => Except.error "e") ⟨"GET", "/x", "client_id=evil&b=2", [], ""⟩).upstreamCalls := by
    rcases handle_calls false (some ("abc", "def")) [] (fun _ => 0) 0
      (fun _ => Except.error "e") ⟨"GET", "/x", "client_id=evil&b=2", [], ""⟩ with h | h
    · exact absurd h (by decide)
    · rw [h]
      simp
  have h1 := (claim5_amended false [] (fun _ => 0) 0 (fun _ => Except.error "e")
    ⟨"GET", "/x", "client_id=evil&b=2", [], ""⟩).1
    (buildReq (some ("abc", "def")) ⟨"GET", "/x", "client_id=evil&b=2", [], ""⟩) hmem
  have hmem2 : buildReq none ⟨"GET", "/x", "client_id=evil&b=2", [], ""⟩
      ∈ (handle false none [] (fun _ => 0) 0
        (fun _ => Except.error "e") ⟨"GET", "/x", "client_id=evil&b=2", [], ""⟩).upstreamCalls := by
    rcases handle_calls false none [] (fun _ => 0) 0
      (fun _ => Except.error "e") ⟨"GET", "/x", "client_id=evil&b=2", [], ""⟩ with h | h
    · exact absurd h (by decide)
    · rw [h]
      simp
  have h2 := (claim5_amended false [] (fun _ => 0) 0 (fun _ => Except.error "e")
    ⟨"GET", "/x", "client_id=evil&b=2", [], ""⟩).2
    (buildReq none ⟨"GET", "/x", "client_id=evil&b=2", [], ""⟩) hmem2
  refine ⟨⟨h1.1.1, h1.1.2, ?_⟩, h2.1⟩
  intro hbad
  have := (h1.2 "client_id=evil" hbad).1 (by decide)
  exact absurd this (by decide)

end GithubProxy
